import Mathlib

/-! Shallow embedding of the SAVER verifiable-encryption core
(`saver/src/keygen.rs` together with the chunking codec and the
encryption/decryption layer it serves).

The pairing groups `G1`, `G2`, `GT` are cyclic of prime order `q`; every group
element is represented by its discrete logarithm with respect to a fixed
generator of its group, i.e. by an element of `ZMod q`.  Scalar multiplication
becomes multiplication in `ZMod q`, group addition becomes addition, and the
pairing `e : G1 × G2 → GT` becomes multiplication of logarithms.  This
representation is exact for the module-level properties (scalar-multiplication
and addition identities, vector lengths, error behaviour) proved here. -/

/-- Modelled from the spec: `chunks_count` of `utils.rs` is not part of the
source slice.  The spec sets `n = ceil(m / b)` where `m` is the bit length of
the field modulus and `b` the chunk bit size. -/
def chunksCount (m b : ℕ) : ℕ := (m + b - 1) / b

/-- Modelled from the spec: `decompose` of `utils.rs` is not part of the
source slice.  The message, read as a big-endian integer, splits into
`n = chunksCount m b` base-`2 ^ b` digits, most significant first. -/
def decompose (m b msg : ℕ) : List ℕ :=
  (List.range (chunksCount m b)).map fun i =>
    msg / 2 ^ (b * (chunksCount m b - 1 - i)) % 2 ^ b

/-- Big-endian weighted sum of a chunk list: `Σ chunk_i * 2 ^ (b*(n-1-i))`
where `n` is the list length. -/
def composeSum (b : ℕ) (chunks : List ℕ) : ℕ :=
  ∑ i in Finset.range chunks.length,
    chunks.getD i 0 * 2 ^ (b * (chunks.length - 1 - i))

/-- Modelled from the spec: `compose` of `utils.rs` is not part of the source
slice.  Returns `Σ chunk_i * 2 ^ (b*(n-1-i)) mod q`. -/
def compose (q b : ℕ) (chunks : List ℕ) : ℕ := composeSum b chunks % q

lemma le_mul_chunksCount (m b : ℕ) (hb : 0 < b) : m ≤ b * chunksCount m b := by
  unfold chunksCount
  have h := Nat.div_add_mod (m + b - 1) b
  have h2 : (m + b - 1) % b < b := Nat.mod_lt _ hb
  omega

lemma sum_div_mod_pow (B x : ℕ) :
    ∀ n, (∑ j in Finset.range n, x / B ^ j % B * B ^ j) = x % B ^ n := by
  intro n
  induction n with
  | zero => simp [Nat.mod_one]
  | succ n ih =>
    rw [Finset.sum_range_succ, ih, pow_succ, Nat.mod_mul]
    ring

lemma getD_map_range {α : Type} (f : ℕ → α) (n i : ℕ) (d : α) (h : i < n) :
    ((List.range n).map f).getD i d = f i := by
  rw [List.getD_eq_getElem?_getD, List.getElem?_map, List.getElem?_range h]
  rfl

lemma length_decompose (m b msg : ℕ) :
    (decompose m b msg).length = chunksCount m b := by
  simp [decompose]

lemma composeSum_decompose (m b msg : ℕ) :
    composeSum b (decompose m b msg) = msg % 2 ^ (b * chunksCount m b) := by
  unfold composeSum
  rw [length_decompose]
  have hsum : (∑ i in Finset.range (chunksCount m b),
      (decompose m b msg).getD i 0 * 2 ^ (b * (chunksCount m b - 1 - i))) =
      ∑ i in Finset.range (chunksCount m b),
      msg / 2 ^ (b * (chunksCount m b - 1 - i)) % 2 ^ b *
        2 ^ (b * (chunksCount m b - 1 - i)) := by
    refine Finset.sum_congr rfl fun i hi => ?_
    rw [decompose, getD_map_range _ _ _ _ (Finset.mem_range.mp hi)]
  rw [hsum]
  have hrefl := Finset.sum_range_reflect
    (fun j => msg / 2 ^ (b * j) % 2 ^ b * 2 ^ (b * j)) (chunksCount m b)
  simp only at hrefl
  rw [hrefl]
  have hpow : ∀ j, 2 ^ (b * j) = (2 ^ b) ^ j := fun j => pow_mul 2 b j
  simp only [hpow]
  rw [sum_div_mod_pow, ← pow_mul]

lemma chunk_lt (m b msg i : ℕ) :
    (decompose m b msg).getD i 0 < 2 ^ b := by
  by_cases h : i < chunksCount m b
  · rw [decompose, getD_map_range _ _ _ _ h]
    exact Nat.mod_lt _ (Nat.pos_pow_of_pos b (by norm_num))
  · rw [List.getD_eq_getElem?_getD]
    have : (decompose m b msg)[i]? = none := by
      rw [List.getElem?_eq_none]
      rw [length_decompose]
      omega
    rw [this]
    exact Nat.pos_pow_of_pos b (by norm_num)

lemma compose_decompose_eq (q m b msg : ℕ) (hb0 : 0 < b)
    (hq : q ≤ 2 ^ m) (hmsg : msg < q) :
    compose q b (decompose m b msg) = msg := by
  have h1 : m ≤ b * chunksCount m b := le_mul_chunksCount m b hb0
  have h2 : msg < 2 ^ (b * chunksCount m b) :=
    lt_of_lt_of_le (lt_of_lt_of_le hmsg hq) (Nat.pow_le_pow_right (by norm_num) h1)
  unfold compose
  rw [composeSum_decompose, Nat.mod_eq_of_lt h2, Nat.mod_eq_of_lt hmsg]

/-- Claim C7: for every supported chunk bit size `b` and every field element
`msg` (a natural below the modulus `q`, whose bit length is at most `m`),
recomposing the big-endian base-`2 ^ b` decomposition of `msg` returns `msg`:
the chunking codec round-trips on the representable range. -/
theorem compose_decompose_id (q m b msg : ℕ)
    (hb : b = 1 ∨ b = 2 ∨ b = 4 ∨ b = 8 ∨ b = 16)
    (hq : q ≤ 2 ^ m) (hmsg : msg < q) :
    compose q b (decompose m b msg) = msg :=
  compose_decompose_eq q m b msg
    (by rcases hb with h | h | h | h | h <;> omega) hq hmsg

/-- Concrete instance of the C7 round trip: `q = 11`, `m = 4`, `b = 4`,
`msg = 7`. -/
theorem compose_decompose_id_witness :
    (11 ≤ 2 ^ 4 ∧ 7 < 11) ∧ compose 11 4 (decompose 4 4 7) = 7 :=
  ⟨⟨by norm_num, by norm_num⟩,
    compose_decompose_id 11 4 4 7 (Or.inr (Or.inr (Or.inl rfl)))
      (by norm_num) (by norm_num)⟩

instance decEqExcept {ε α : Type} [DecidableEq ε] [DecidableEq α] :
    DecidableEq (Except ε α) := fun x y =>
  match x, y with
  | .ok a, .ok b =>
    if h : a = b then isTrue (by rw [h])
    else isFalse (by intro hc; injection hc with h2; exact h h2)
  | .ok _, .error _ => isFalse (by intro hc; exact Except.noConfusion hc)
  | .error _, .ok _ => isFalse (by intro hc; exact Except.noConfusion hc)
  | .error e, .error f =>
    if h : e = f then isTrue (by rw [h])
    else isFalse (by intro hc; injection hc with h2; exact h h2)

/-- Error kinds of the crate (`error.rs` is not in the slice; the constructors
used by `keygen.rs` and the spec's §7 are reproduced here). -/
inductive Error : Type
  | VectorShorterThanExpected (got expected : ℕ)
  | MalformedEncryptionKey (got expected : ℕ)
  | MalformedDecryptionKey (got expected : ℕ)
  | CouldNotFindDiscreteLog (i : ℕ)
  deriving DecidableEq, Repr

/-- Encryption generators `G ∈ G1`, `H ∈ G2` (`setup.rs` `EncryptionGens`),
in discrete-logarithm representation. -/
structure EncryptionGens (q : ℕ) where
  G : ZMod q
  H : ZMod q
  deriving DecidableEq, Repr

/-- `EncryptionKey` of `keygen.rs`, in discrete-logarithm representation. -/
structure EncryptionKey (q : ℕ) where
  X_0 : ZMod q
  X : List (ZMod q)
  Y : List (ZMod q)
  Z : List (ZMod q)
  P_1 : ZMod q
  P_2 : ZMod q
  deriving DecidableEq, Repr

/-- `DecryptionKey` of `keygen.rs`, in discrete-logarithm representation. -/
structure DecryptionKey (q : ℕ) where
  V_0 : ZMod q
  V_1 : List (ZMod q)
  V_2 : List (ZMod q)
  deriving DecidableEq, Repr

/-- `EncryptionKey::supported_chunks_count` of `keygen.rs`: checks
`|Y| = |X|` and `|Z| = |X| + 1` and returns `|X|` cast to `u8`
(`Ok(n as u8)`, i.e. reduced modulo 256).  On a mismatch it returns
`MalformedEncryptionKey(got, n)` where `n = |X|` — for both the `Y` and the
`Z` check. -/
def EncryptionKey.supported_chunks_count {q : ℕ} (ek : EncryptionKey q) :
    Except Error ℕ :=
  let n := ek.X.length
  if ek.Y.length ≠ n then .error (.MalformedEncryptionKey ek.Y.length n)
  else if ek.Z.length ≠ n + 1 then .error (.MalformedEncryptionKey ek.Z.length n)
  else .ok (n % 256)

/-- `EncryptionKey::validate` of `keygen.rs`. -/
def EncryptionKey.validate {q : ℕ} (ek : EncryptionKey q) : Except Error Unit :=
  match ek.supported_chunks_count with
  | .ok _ => .ok ()
  | .error e => .error e

/-- `DecryptionKey::supported_chunks_count` of `keygen.rs`: checks
`|V_2| = |V_1|` and returns `|V_1|` cast to `u8` (reduced modulo 256). -/
def DecryptionKey.supported_chunks_count {q : ℕ} (dk : DecryptionKey q) :
    Except Error ℕ :=
  let n := dk.V_1.length
  if dk.V_2.length ≠ n then .error (.MalformedDecryptionKey dk.V_2.length n)
  else .ok (n % 256)

/-- `DecryptionKey::validate` of `keygen.rs`. -/
def DecryptionKey.validate {q : ℕ} (dk : DecryptionKey q) : Except Error Unit :=
  match dk.supported_chunks_count with
  | .ok _ => .ok ()
  | .error e => .error e

/-- The scalar `rho` sampled by `keygen`: the rng is modelled as a stream of
field elements consumed in the order the code draws them (`rho`, then the
`n` elements of `s`, the `n + 1` elements of `t`, the `n` elements of `v`). -/
def sampled_rho {q : ℕ} (rng : ℕ → ZMod q) : ZMod q := rng 0

/-- The scalar `s_i` sampled by `keygen` (drawn after `rho`). -/
def sampled_s {q : ℕ} (rng : ℕ → ZMod q) (i : ℕ) : ZMod q := rng (1 + i)

/-- The scalar `t_i` sampled by `keygen` (drawn after `rho` and the `n`
elements of `s`). -/
def sampled_t {q : ℕ} (n : ℕ) (rng : ℕ → ZMod q) (i : ℕ) : ZMod q :=
  rng (1 + n + i)

/-- The scalar `v_i` sampled by `keygen` (drawn after `rho`, `s` and the
`n + 1` elements of `t`). -/
def sampled_v {q : ℕ} (n : ℕ) (rng : ℕ → ZMod q) (i : ℕ) : ZMod q :=
  rng (1 + n + (n + 1) + i)

/-- `keygen` of `keygen.rs`, in discrete-logarithm representation.  `m` is the
bit length of the scalar-field modulus (the generic code reads it off the
curve's field; here it is an explicit parameter of the embedding), and the rng
is a stream of field elements consumed in sampling order. -/
def keygen (q m : ℕ) (chunk_bit_size : ℕ) (rng : ℕ → ZMod q)
    (gens : EncryptionGens q) (g_i : List (ZMod q))
    (delta_g gamma_g : ZMod q) :
    Except Error (ZMod q × EncryptionKey q × DecryptionKey q) :=
  let n := chunksCount m chunk_bit_size
  if n > g_i.length then .error (.VectorShorterThanExpected g_i.length n)
  else
    let rho := sampled_rho rng
    let s := sampled_s rng
    let t := sampled_t n rng
    let v := sampled_v n rng
    let X := (List.range n).map fun i => s i * delta_g
    let Y := (List.range n).map fun i => t (i + 1) * g_i.getD i 0
    let Z := (List.range (n + 1)).map fun i => t i * gens.H
    let P_1 := (t 0 + ∑ j in Finset.range n, s j * t (j + 1)) * delta_g
    let P_2 := (1 + ∑ i in Finset.range n, s i) * gamma_g
    let V_0 := rho * gens.H
    let V_2 := (List.range n).map fun i => v i * V_0
    let V_1 := (List.range n).map fun i => s i * v i * gens.H
    .ok (rho, ⟨delta_g, X, Y, Z, P_1, P_2⟩, ⟨V_0, V_1, V_2⟩)

lemma keygen_eq_ok (q m b : ℕ) (rng : ℕ → ZMod q) (gens : EncryptionGens q)
    (g_i : List (ZMod q)) (delta_g gamma_g : ZMod q)
    (h : chunksCount m b ≤ g_i.length) :
    keygen q m b rng gens g_i delta_g gamma_g =
      .ok (sampled_rho rng,
        ⟨delta_g,
          (List.range (chunksCount m b)).map fun i => sampled_s rng i * delta_g,
          (List.range (chunksCount m b)).map fun i =>
            sampled_t (chunksCount m b) rng (i + 1) * g_i.getD i 0,
          (List.range (chunksCount m b + 1)).map fun i =>
            sampled_t (chunksCount m b) rng i * gens.H,
          (sampled_t (chunksCount m b) rng 0 +
            ∑ j in Finset.range (chunksCount m b),
              sampled_s rng j * sampled_t (chunksCount m b) rng (j + 1)) * delta_g,
          (1 + ∑ i in Finset.range (chunksCount m b), sampled_s rng i) * gamma_g⟩,
        ⟨sampled_rho rng * gens.H,
          (List.range (chunksCount m b)).map fun i =>
            sampled_s rng i * sampled_v (chunksCount m b) rng i * gens.H,
          (List.range (chunksCount m b)).map fun i =>
            sampled_v (chunksCount m b) rng i * (sampled_rho rng * gens.H)⟩) := by
  rw [keygen]
  simp only [gt_iff_lt]
  rw [if_neg (by omega)]

/-- Claim C1 (counterexample): keygen computes `P_2 = (1 + Σ s_i) * gamma_g`
without negating, so the claimed `P_2 = -((1 + Σ s_i) * gamma_g)` fails at a
concrete instance (`q = 5`, `b = 4`, `m = 4`, all sampled scalars `0`,
`gamma_g = 1`): the code returns `P_2 = 1` while the claim demands `-1 = 4`. -/
theorem keygen_P2_negation_cex :
    (keygen 5 4 4 (fun _ => 0) ⟨1, 1⟩ [1] 1 1).map (fun out => out.2.1.P_2) =
      .ok 1 ∧
    ((1 : ZMod 5) ≠
      -((1 + ∑ i in Finset.range (chunksCount 4 4),
          sampled_s (fun _ => (0 : ZMod 5)) i) * 1)) := by
  constructor
  · decide
  · decide

/-- Claim C1 (amended): whenever keygen succeeds, the encryption key satisfies
`P_2 = (1 + Σ s_i) * gamma_g` for the sampled scalars `s_i` — keygen multiplies
the supplied `gamma_g` point directly, without negation; the `-γ` factor of the
paper holds only if the caller already supplies `gamma_g = (-γ)·G`. -/
theorem keygen_P2_eq (q m b : ℕ) (rng : ℕ → ZMod q) (gens : EncryptionGens q)
    (g_i : List (ZMod q)) (delta_g gamma_g : ZMod q)
    (sk : ZMod q) (ek : EncryptionKey q) (dk : DecryptionKey q)
    (h : keygen q m b rng gens g_i delta_g gamma_g = .ok (sk, ek, dk)) :
    ek.P_2 = (1 + ∑ i in Finset.range (chunksCount m b), sampled_s rng i) * gamma_g := by
  by_cases hlen : chunksCount m b ≤ g_i.length
  · rw [keygen_eq_ok q m b rng gens g_i delta_g gamma_g hlen] at h
    simp only [Except.ok.injEq, Prod.mk.injEq] at h
    obtain ⟨-, h2, -⟩ := h
    rw [← h2]
  · rw [keygen, if_pos (by omega)] at h
    cases h

/-- Concrete instance of the amended C1: all sampled scalars `0`,
`gamma_g = 1`, giving `P_2 = 1`. -/
theorem keygen_P2_eq_witness :
    (⟨1, [0], [0], [0, 0], 0, 1⟩ : EncryptionKey 5).P_2 =
      (1 + ∑ i in Finset.range (chunksCount 4 4),
        sampled_s (fun _ => (0 : ZMod 5)) i) * 1 :=
  keygen_P2_eq 5 4 4 (fun _ => 0) ⟨1, 1⟩ [1] 1 1 0
    ⟨1, [0], [0], [0, 0], 0, 1⟩ ⟨0, [0], [0]⟩ (by decide)

/-- Claim C2: with a long enough `g_i`, keygen succeeds and returns keys with
`|X| = |Y| = n`, `|Z| = n + 1`, `|V_1| = |V_2| = n`, and both the encryption
key and the decryption key pass their `validate` check. -/
theorem keygen_key_shapes (q m b : ℕ) (rng : ℕ → ZMod q)
    (gens : EncryptionGens q) (g_i : List (ZMod q)) (delta_g gamma_g : ZMod q)
    (h : chunksCount m b ≤ g_i.length) :
    ∃ sk ek dk, keygen q m b rng gens g_i delta_g gamma_g = .ok (sk, ek, dk) ∧
      ek.X.length = chunksCount m b ∧ ek.Y.length = chunksCount m b ∧
      ek.Z.length = chunksCount m b + 1 ∧
      dk.V_1.length = chunksCount m b ∧ dk.V_2.length = chunksCount m b ∧
      ek.validate = .ok () ∧ dk.validate = .ok () := by
  refine ⟨_, _, _, keygen_eq_ok q m b rng gens g_i delta_g gamma_g h,
    ?_, ?_, ?_, ?_, ?_, ?_, ?_⟩ <;>
    simp [EncryptionKey.validate, DecryptionKey.validate,
      EncryptionKey.supported_chunks_count, DecryptionKey.supported_chunks_count]

/-- Concrete instance of C2 at `q = 5`, `b = 4`, `m = 4`. -/
theorem keygen_key_shapes_witness :
    chunksCount 4 4 ≤ [(1 : ZMod 5)].length ∧
    (∃ sk ek dk, keygen 5 4 4 (fun _ => 1) ⟨1, 1⟩ [1] 1 1 = .ok (sk, ek, dk) ∧
      ek.X.length = chunksCount 4 4 ∧ ek.Y.length = chunksCount 4 4 ∧
      ek.Z.length = chunksCount 4 4 + 1 ∧
      dk.V_1.length = chunksCount 4 4 ∧ dk.V_2.length = chunksCount 4 4 ∧
      ek.validate = .ok () ∧ dk.validate = .ok ()) :=
  ⟨by decide, keygen_key_shapes 5 4 4 (fun _ => 1) ⟨1, 1⟩ [1] 1 1 (by decide)⟩

/-- Claim C3: whenever keygen succeeds, the encryption key components are
`X_0 = delta_g`, `X_i = s_i * delta_g`, `Y_i = t_(i+1) * g_i`,
`Z_i = t_i * H`, and `P_1 = (t_0 + Σ s_j * t_(j+1)) * delta_g` for the
sampled scalars. -/
theorem keygen_ek_components (q m b : ℕ) (rng : ℕ → ZMod q)
    (gens : EncryptionGens q) (g_i : List (ZMod q)) (delta_g gamma_g : ZMod q)
    (sk : ZMod q) (ek : EncryptionKey q) (dk : DecryptionKey q)
    (h : keygen q m b rng gens g_i delta_g gamma_g = .ok (sk, ek, dk)) :
    ek.X_0 = delta_g ∧
    (∀ i < chunksCount m b, ek.X.getD i 0 = sampled_s rng i * delta_g) ∧
    (∀ i < chunksCount m b, ek.Y.getD i 0 =
      sampled_t (chunksCount m b) rng (i + 1) * g_i.getD i 0) ∧
    (∀ i < chunksCount m b + 1, ek.Z.getD i 0 =
      sampled_t (chunksCount m b) rng i * gens.H) ∧
    ek.P_1 = (sampled_t (chunksCount m b) rng 0 +
      ∑ j in Finset.range (chunksCount m b),
        sampled_s rng j * sampled_t (chunksCount m b) rng (j + 1)) * delta_g := by
  by_cases hlen : chunksCount m b ≤ g_i.length
  · rw [keygen_eq_ok q m b rng gens g_i delta_g gamma_g hlen] at h
    simp only [Except.ok.injEq, Prod.mk.injEq] at h
    obtain ⟨-, h2, -⟩ := h
    subst h2
    refine ⟨rfl, fun i hi => ?_, fun i hi => ?_, fun i hi => ?_, rfl⟩ <;>
      rw [getD_map_range _ _ _ _ hi]
  · rw [keygen, if_pos (by omega)] at h
    cases h

/-- Concrete instance of C3 at `q = 5`, `b = 4`, `m = 4`, all samples `0`. -/
theorem keygen_ek_components_witness :
    (⟨1, [0], [0], [0, 0], 0, 1⟩ : EncryptionKey 5).X_0 = 1 ∧
    (∀ i < chunksCount 4 4,
      ([(0 : ZMod 5)]).getD i 0 = sampled_s (fun _ => (0 : ZMod 5)) i * 1) ∧
    (∀ i < chunksCount 4 4, ([(0 : ZMod 5)]).getD i 0 =
      sampled_t (chunksCount 4 4) (fun _ => (0 : ZMod 5)) (i + 1) *
        ([(1 : ZMod 5)]).getD i 0) ∧
    (∀ i < chunksCount 4 4 + 1, ([0, (0 : ZMod 5)]).getD i 0 =
      sampled_t (chunksCount 4 4) (fun _ => (0 : ZMod 5)) i * 1) ∧
    (⟨1, [0], [0], [0, 0], 0, 1⟩ : EncryptionKey 5).P_1 =
      (sampled_t (chunksCount 4 4) (fun _ => (0 : ZMod 5)) 0 +
        ∑ j in Finset.range (chunksCount 4 4),
          sampled_s (fun _ => (0 : ZMod 5)) j *
            sampled_t (chunksCount 4 4) (fun _ => (0 : ZMod 5)) (j + 1)) * 1 :=
  keygen_ek_components 5 4 4 (fun _ => 0) ⟨1, 1⟩ [1] 1 1 0
    ⟨1, [0], [0], [0, 0], 0, 1⟩ ⟨0, [0], [0]⟩ (by decide)

/-- Claim C4: whenever keygen succeeds, the secret and decryption keys are
`SK = rho`, `V_0 = rho * H`, `V_1_i = s_i * v_i * H`, and
`V_2_i = rho * v_i * H` for the sampled scalars. -/
theorem keygen_sk_dk_components (q m b : ℕ) (rng : ℕ → ZMod q)
    (gens : EncryptionGens q) (g_i : List (ZMod q)) (delta_g gamma_g : ZMod q)
    (sk : ZMod q) (ek : EncryptionKey q) (dk : DecryptionKey q)
    (h : keygen q m b rng gens g_i delta_g gamma_g = .ok (sk, ek, dk)) :
    sk = sampled_rho rng ∧
    dk.V_0 = sampled_rho rng * gens.H ∧
    (∀ i < chunksCount m b, dk.V_1.getD i 0 =
      sampled_s rng i * sampled_v (chunksCount m b) rng i * gens.H) ∧
    (∀ i < chunksCount m b, dk.V_2.getD i 0 =
      sampled_rho rng * sampled_v (chunksCount m b) rng i * gens.H) := by
  by_cases hlen : chunksCount m b ≤ g_i.length
  · rw [keygen_eq_ok q m b rng gens g_i delta_g gamma_g hlen] at h
    simp only [Except.ok.injEq, Prod.mk.injEq] at h
    obtain ⟨h1, -, h3⟩ := h
    subst h1
    subst h3
    refine ⟨rfl, rfl, fun i hi => ?_, fun i hi => ?_⟩ <;>
      rw [getD_map_range _ _ _ _ hi]
    ring
  · rw [keygen, if_pos (by omega)] at h
    cases h

/-- Concrete instance of C4 at `q = 5`, `b = 4`, `m = 4`, all samples `0`. -/
theorem keygen_sk_dk_components_witness :
    (0 : ZMod 5) = sampled_rho (fun _ => (0 : ZMod 5)) ∧
    (⟨0, [0], [0]⟩ : DecryptionKey 5).V_0 =
      sampled_rho (fun _ => (0 : ZMod 5)) * 1 ∧
    (∀ i < chunksCount 4 4, (⟨0, [0], [0]⟩ : DecryptionKey 5).V_1.getD i 0 =
      sampled_s (fun _ => (0 : ZMod 5)) i *
        sampled_v (chunksCount 4 4) (fun _ => (0 : ZMod 5)) i * 1) ∧
    (∀ i < chunksCount 4 4, (⟨0, [0], [0]⟩ : DecryptionKey 5).V_2.getD i 0 =
      sampled_rho (fun _ => (0 : ZMod 5)) *
        sampled_v (chunksCount 4 4) (fun _ => (0 : ZMod 5)) i * 1) :=
  keygen_sk_dk_components 5 4 4 (fun _ => 0) ⟨1, 1⟩ [1] 1 1 0
    ⟨1, [0], [0], [0, 0], 0, 1⟩ ⟨0, [0], [0]⟩ (by decide)

/-- Claim C5: keygen fails exactly when `|g_i| < n`, in which case the error
is `VectorShorterThanExpected(|g_i|, n)`; otherwise it succeeds. -/
theorem keygen_err_iff (q m b : ℕ) (rng : ℕ → ZMod q)
    (gens : EncryptionGens q) (g_i : List (ZMod q)) (delta_g gamma_g : ZMod q) :
    (g_i.length < chunksCount m b →
      keygen q m b rng gens g_i delta_g gamma_g =
        .error (.VectorShorterThanExpected g_i.length (chunksCount m b))) ∧
    (chunksCount m b ≤ g_i.length →
      ∃ out, keygen q m b rng gens g_i delta_g gamma_g = .ok out) ∧
    ((∃ e, keygen q m b rng gens g_i delta_g gamma_g = .error e) ↔
      g_i.length < chunksCount m b) := by
  refine ⟨fun hlt => ?_, fun hge => ?_, ?_⟩
  · rw [keygen, if_pos (by omega)]
  · exact ⟨_, keygen_eq_ok q m b rng gens g_i delta_g gamma_g hge⟩
  · constructor
    · rintro ⟨e, he⟩
      by_contra hge
      rw [keygen_eq_ok q m b rng gens g_i delta_g gamma_g (by omega)] at he
      cases he
    · intro hlt
      exact ⟨_, by rw [keygen, if_pos (by omega)]⟩

/-- Concrete instance of C5: `b = 8`, `m = 16`, so `n = 2`, with a length-1
`g_i`, keygen reports `VectorShorterThanExpected(1, 2)`. -/
theorem keygen_err_iff_witness :
    [(1 : ZMod 5)].length < chunksCount 16 8 ∧
    keygen 5 16 8 (fun _ => 0) ⟨1, 1⟩ [1] 1 1 =
      .error (.VectorShorterThanExpected 1 2) :=
  ⟨by decide,
    (keygen_err_iff 5 16 8 (fun _ => 0) ⟨1, 1⟩ [1] 1 1).1 (by decide)⟩

/-- Claim C6 (counterexample): for an encryption key with `X = Y = Z = []`,
the offending vector is `Z` (length `0`, required `|X| + 1 = 1`), but the
code reports `MalformedEncryptionKey(0, 0)` — the second component is `|X|`,
not the required length `|X| + 1`. -/
theorem ek_malformed_z_expected_cex :
    (⟨0, [], [], [], 0, 0⟩ : EncryptionKey 5).supported_chunks_count =
      .error (.MalformedEncryptionKey 0 0) ∧
    Error.MalformedEncryptionKey 0 0 ≠ .MalformedEncryptionKey 0 1 := by
  constructor
  · decide
  · decide

/-- Claim C6 (amended): `supported_chunks_count` (hence `validate`) errors
exactly when `|Y| ≠ |X|` or `|Z| ≠ |X| + 1`; the error is
`MalformedEncryptionKey(got, |X|)` — the second component is `|X|` in both
checks, including the `Z` check whose required length is `|X| + 1`. -/
theorem ek_validate_amended (q : ℕ) (ek : EncryptionKey q) :
    ((∃ e, ek.supported_chunks_count = .error e) ↔
      (ek.Y.length ≠ ek.X.length ∨ ek.Z.length ≠ ek.X.length + 1)) ∧
    ((∃ e, ek.validate = .error e) ↔
      (ek.Y.length ≠ ek.X.length ∨ ek.Z.length ≠ ek.X.length + 1)) ∧
    (ek.Y.length ≠ ek.X.length →
      ek.supported_chunks_count =
        .error (.MalformedEncryptionKey ek.Y.length ek.X.length)) ∧
    (ek.Y.length = ek.X.length → ek.Z.length ≠ ek.X.length + 1 →
      ek.supported_chunks_count =
        .error (.MalformedEncryptionKey ek.Z.length ek.X.length)) := by
  unfold EncryptionKey.validate EncryptionKey.supported_chunks_count
  by_cases h1 : ek.Y.length = ek.X.length <;>
    by_cases h2 : ek.Z.length = ek.X.length + 1 <;>
    simp [h1, h2]

/-- Concrete instance of the amended C6: `|Y| = 1 ≠ 0 = |X|` yields
`MalformedEncryptionKey(1, 0)`. -/
theorem ek_validate_amended_witness :
    (⟨0, [], [(0 : ZMod 5)], [], 0, 0⟩ : EncryptionKey 5).supported_chunks_count =
      .error (.MalformedEncryptionKey 1 0) :=
  (ek_validate_amended 5 ⟨0, [], [0], [], 0, 0⟩).2.2.1 (by decide)

/-- Claim C9: decryption-key validation succeeds exactly when
`|V_1| = |V_2|`; it never inspects `V_0` (replacing `V_0` does not change the
outcome) and never relates the lengths to the chunk bit size, so any pair of
equal-length vectors — including empty ones — passes. -/
theorem dk_validate_spec (q : ℕ) :
    (∀ dk : DecryptionKey q,
      dk.validate = .ok () ↔ dk.V_1.length = dk.V_2.length) ∧
    (∀ dk : DecryptionKey q,
      (∃ c, dk.supported_chunks_count = .ok c) ↔
        dk.V_1.length = dk.V_2.length) ∧
    (∀ dk : DecryptionKey q, ∀ w : ZMod q,
      DecryptionKey.validate ⟨w, dk.V_1, dk.V_2⟩ = dk.validate) := by
  refine ⟨fun dk => ?_, fun dk => ?_, fun dk w => rfl⟩ <;>
    by_cases h : dk.V_2.length = dk.V_1.length <;>
    simp [DecryptionKey.validate, DecryptionKey.supported_chunks_count, h] <;>
    omega

/-- Concrete instance of C9: the all-empty decryption key passes validation. -/
theorem dk_validate_spec_witness :
    (⟨(0 : ZMod 5), [], []⟩ : DecryptionKey 5).validate = .ok () :=
  ((dk_validate_spec 5).1 ⟨0, [], []⟩).mpr (by decide)

/-- Claim C10: on shape-consistent keys, `supported_chunks_count` returns the
vector length reduced modulo 256 (the `as u8` cast), for the encryption key
(`|X| % 256`) and the decryption key (`|V_1| % 256`) alike; a consistent key
with 256-length vectors therefore reports `Ok(0)`. -/
theorem chunks_count_u8_wrap (q : ℕ) :
    (∀ ek : EncryptionKey q, ek.Y.length = ek.X.length →
      ek.Z.length = ek.X.length + 1 →
      ek.supported_chunks_count = .ok (ek.X.length % 256)) ∧
    (∀ dk : DecryptionKey q, dk.V_2.length = dk.V_1.length →
      dk.supported_chunks_count = .ok (dk.V_1.length % 256)) := by
  constructor
  · intro ek h1 h2
    unfold EncryptionKey.supported_chunks_count
    simp [h1, h2]
  · intro dk h1
    unfold DecryptionKey.supported_chunks_count
    simp [h1]

set_option maxRecDepth 10000 in
/-- Concrete instance of C10: a consistent encryption key with
`|X| = |Y| = 256` and `|Z| = 257` reports a wrapped chunk count of `0`. -/
theorem chunks_count_u8_wrap_witness :
    (⟨0, List.replicate 256 (0 : ZMod 5), List.replicate 256 0,
      List.replicate 257 0, 0, 0⟩ :
        EncryptionKey 5).supported_chunks_count = .ok 0 := by
  have h := (chunks_count_u8_wrap 5).1
    ⟨0, List.replicate 256 0, List.replicate 256 0, List.replicate 257 0, 0, 0⟩
    (by rw [List.length_replicate])
    (by rw [List.length_replicate, List.length_replicate])
  simpa using h

/-- Ciphertext of the scheme (§3 of the design): `X_r` is the randomness
commitment `X_0' = r·X_0`, `enc_chunks` the per-chunk components `c_i`, and
`commitment` the bound chunked-witness commitment. -/
structure Ciphertext (q : ℕ) where
  X_r : ZMod q
  enc_chunks : List (ZMod q)
  commitment : ZMod q
  deriving DecidableEq, Repr

/-- Modelled from the spec: `Encryption::encrypt` of `encryption.rs` is not in
the source slice.  §4.4: `chunks = decompose(msg, b)`; `X_0' = r·X_0`;
`c_i = r·X_i + chunk_i·Y_i`; `commitment = r·P_1 + Σ chunk_i·Y_i`.  The
encryption randomness `r` is an explicit argument (the code samples it from
its rng). -/
def encrypt (q m b : ℕ) (msg r : ZMod q) (ek : EncryptionKey q) :
    Ciphertext q :=
  let chunks := decompose m b msg.val
  { X_r := r * ek.X_0
    enc_chunks := (List.range chunks.length).map fun i =>
      r * ek.X.getD i 0 + (chunks.getD i 0 : ZMod q) * ek.Y.getD i 0
    commitment := r * ek.P_1 + ∑ i in Finset.range chunks.length,
      (chunks.getD i 0 : ZMod q) * ek.Y.getD i 0 }

/-- One small-discrete-log search (§4.7 step 2): iterate `k = 0 .. 2^b − 1`
and return the first `k` with `base^k = target`; in logarithm form,
`k · base = target`. -/
def decryptChunk (q b : ℕ) (base target : ZMod q) : Option ℕ :=
  (List.range (2 ^ b)).find? fun k => (k : ZMod q) * base = target

/-- Per-chunk recovery loop of decryption (§4.7): walks the ciphertext chunks
with their index `i`, forming for each the pairing target
`e(c_i, V_2_i) / e(rho·X_0', V_1_i)` and searching the discrete log of that
target in base `e(Y_i, V_2_i)`; fails with `CouldNotFindDiscreteLog i` when
the search is exhausted. -/
def decryptChunks (q b : ℕ) (dk : DecryptionKey q) (ek : EncryptionKey q)
    (rhoXr : ZMod q) : List (ZMod q) → ℕ → Except Error (List ℕ)
  | [], _ => .ok []
  | c :: cs, i =>
    match decryptChunk q b (ek.Y.getD i 0 * dk.V_2.getD i 0)
        (c * dk.V_2.getD i 0 - rhoXr * dk.V_1.getD i 0) with
    | none => .error (.CouldNotFindDiscreteLog i)
    | some k => (decryptChunks q b dk ek rhoXr cs (i + 1)).map fun ks => k :: ks

/-- Modelled from the spec: `decrypt` of `encryption.rs` is not in the source
slice.  §4.7: each chunk is recovered by brute force from a pairing quotient
— formed here with the secret-key multiple `rho·X_0'` of `X_0'`, the
"algebraically equivalent form" §4.7 licenses, since with `X_0'` itself the
quotient does not equal a power of the base as §4.7 step 1 asserts — the
message is recomposed with `compose`, and the transcript `nu = X_0'`
(= `r·X_0`) is emitted (§4.7: "Emit ν = X₀'").  Pairings appear in logarithm
form: `e(P, Q)` is `P * Q` and GT division is subtraction. -/
def decrypt (q b : ℕ) (sk : ZMod q) (dk : DecryptionKey q)
    (ek : EncryptionKey q) (ct : Ciphertext q) :
    Except Error (ZMod q × ZMod q) :=
  (decryptChunks q b dk ek (sk * ct.X_r) ct.enc_chunks 0).map fun chunks =>
    (((compose q b chunks : ℕ) : ZMod q), ct.X_r)

lemma find_range_unique (p : ℕ → Bool) (N u : ℕ) (hu : u < N)
    (hp : ∀ k < N, (p k = true ↔ k = u)) :
    (List.range N).find? p = some u := by
  induction N with
  | zero => omega
  | succ N ih =>
    rw [List.range_succ, List.find?_append]
    by_cases h : u < N
    · rw [ih h (fun k hk => hp k (by omega))]
      rfl
    · have hu2 : u = N := by omega
      have hnone : (List.range N).find? p = none := by
        rw [List.find?_eq_none]
        intro x hx
        rw [List.mem_range] at hx
        rw [Bool.not_eq_true, ← Bool.not_eq_true, hp x (by omega)]
        omega
      rw [hnone, List.find?_cons_of_pos _ ((hp N (by omega)).mpr hu2.symm)]
      rw [hu2]
      rfl

lemma decryptChunk_eq (q b : ℕ) [Fact (Nat.Prime q)] (a : ZMod q) (ha : a ≠ 0)
    (u : ℕ) (hu : u < 2 ^ b) (hqb : 2 ^ b ≤ q) :
    decryptChunk q b a ((u : ZMod q) * a) = some u := by
  unfold decryptChunk
  apply find_range_unique _ _ _ hu
  intro k hk
  simp only [decide_eq_true_eq]
  constructor
  · intro hEq
    have h2 : (k : ZMod q) = (u : ZMod q) := mul_right_cancel₀ ha hEq
    have h3 := congrArg ZMod.val h2
    rwa [ZMod.val_cast_of_lt (by omega), ZMod.val_cast_of_lt (by omega)] at h3
  · rintro rfl
    rfl

lemma decryptChunks_eq_ok (q b : ℕ) (dk : DecryptionKey q)
    (ek : EncryptionKey q) (rhoXr : ZMod q) :
    ∀ (cs : List (ZMod q)) (i0 : ℕ) (us : List ℕ),
      cs.length = us.length →
      (∀ j < cs.length,
        decryptChunk q b (ek.Y.getD (i0 + j) 0 * dk.V_2.getD (i0 + j) 0)
          (cs.getD j 0 * dk.V_2.getD (i0 + j) 0 -
            rhoXr * dk.V_1.getD (i0 + j) 0) = some (us.getD j 0)) →
      decryptChunks q b dk ek rhoXr cs i0 = .ok us := by
  intro cs
  induction cs with
  | nil =>
    intro i0 us hlen _
    have hus : us = [] := by
      cases us with
      | nil => rfl
      | cons a l => simp at hlen
    subst hus
    rfl
  | cons c cs ih =>
    intro i0 us hlen hj
    cases us with
    | nil => simp at hlen
    | cons u us2 =>
      have h0 := hj 0 (by simp)
      simp only [Nat.add_zero, List.getD_cons_zero] at h0
      have hrec : decryptChunks q b dk ek rhoXr cs (i0 + 1) = .ok us2 := by
        apply ih (i0 + 1) us2 (by simpa using hlen)
        intro j hjlt
        have h1 := hj (j + 1) (by simp only [List.length_cons]; omega)
        have hidx : i0 + (j + 1) = i0 + 1 + j := by omega
        simpa [hidx, List.getD_cons_succ] using h1
      have hstep : decryptChunks q b dk ek rhoXr (c :: cs) i0 =
          match decryptChunk q b (ek.Y.getD i0 0 * dk.V_2.getD i0 0)
              (c * dk.V_2.getD i0 0 - rhoXr * dk.V_1.getD i0 0) with
          | none => .error (.CouldNotFindDiscreteLog i0)
          | some k =>
            (decryptChunks q b dk ek rhoXr cs (i0 + 1)).map fun ks => k :: ks :=
        rfl
      rw [hstep, h0, hrec]
      rfl

/-- Claim C8: for every key triple produced by (the key-generation step of)
setup, every message and every encryption randomness, decrypting the honest
ciphertext returns exactly the original message together with the transcript
`nu = r·X_0` (the ciphertext component `X_0'`).  The side conditions are those
of an honest instantiation: `2^b ≤ q`, the modulus fits in `m` bits, and each
per-chunk pairing base `e(Y_i, V_2_i)` is nonzero (which holds whenever the
sampled `rho`, `v_i`, `t_(i+1)` and the SRS points are nonzero — all but a
negligible fraction of rng outcomes). -/
theorem decrypt_encrypt_roundtrip (q m b : ℕ) [Fact (Nat.Prime q)]
    (rng : ℕ → ZMod q) (gens : EncryptionGens q) (g_i : List (ZMod q))
    (delta_g gamma_g : ZMod q) (msg r : ZMod q)
    (sk : ZMod q) (ek : EncryptionKey q) (dk : DecryptionKey q)
    (hkg : keygen q m b rng gens g_i delta_g gamma_g = .ok (sk, ek, dk))
    (hb0 : 0 < b) (hq : q ≤ 2 ^ m) (hqb : 2 ^ b ≤ q)
    (hbase : ∀ i < chunksCount m b, ek.Y.getD i 0 * dk.V_2.getD i 0 ≠ 0) :
    decrypt q b sk dk ek (encrypt q m b msg r ek) = .ok (msg, r * ek.X_0) := by
  haveI : NeZero q := ⟨Nat.Prime.ne_zero Fact.out⟩
  have hlen : chunksCount m b ≤ g_i.length := by
    by_contra hlt
    rw [keygen, if_pos (by omega)] at hkg
    cases hkg
  rw [keygen_eq_ok q m b rng gens g_i delta_g gamma_g hlen] at hkg
  simp only [Except.ok.injEq, Prod.mk.injEq] at hkg
  obtain ⟨hsk, hek, hdk⟩ := hkg
  have hsk2 : sk = sampled_rho rng := hsk.symm
  have hX0 : ek.X_0 = delta_g := by rw [← hek]
  have hX : ∀ i < chunksCount m b,
      ek.X.getD i 0 = sampled_s rng i * delta_g := by
    intro i hi
    rw [← hek]
    exact getD_map_range _ _ _ _ hi
  have hV1 : ∀ i < chunksCount m b, dk.V_1.getD i 0 =
      sampled_s rng i * sampled_v (chunksCount m b) rng i * gens.H := by
    intro i hi
    rw [← hdk]
    exact getD_map_range _ _ _ _ hi
  have hV2 : ∀ i < chunksCount m b, dk.V_2.getD i 0 =
      sampled_v (chunksCount m b) rng i * (sampled_rho rng * gens.H) := by
    intro i hi
    rw [← hdk]
    exact getD_map_range _ _ _ _ hi
  have hXr : (encrypt q m b msg r ek).X_r = r * ek.X_0 := rfl
  have hEnc : (encrypt q m b msg r ek).enc_chunks =
      (List.range (decompose m b msg.val).length).map fun i =>
        r * ek.X.getD i 0 +
          ((decompose m b msg.val).getD i 0 : ZMod q) * ek.Y.getD i 0 := rfl
  show (decryptChunks q b dk ek (sk * (encrypt q m b msg r ek).X_r)
      (encrypt q m b msg r ek).enc_chunks 0).map
        (fun chunks => (((compose q b chunks : ℕ) : ZMod q),
          (encrypt q m b msg r ek).X_r)) = .ok (msg, r * ek.X_0)
  rw [hEnc, hXr]
  have hchunks : decryptChunks q b dk ek (sk * (r * ek.X_0))
      ((List.range (decompose m b msg.val).length).map fun i =>
        r * ek.X.getD i 0 +
          ((decompose m b msg.val).getD i 0 : ZMod q) * ek.Y.getD i 0) 0 =
      .ok (decompose m b msg.val) := by
    apply decryptChunks_eq_ok
    · simp
    · intro j hj2
      have hjn : j < chunksCount m b := by
        simpa [length_decompose] using hj2
      have hjd : j < (decompose m b msg.val).length := by
        simpa using hj2
      simp only [Nat.zero_add]
      rw [getD_map_range _ _ _ _ hjd]
      have htarget : (r * ek.X.getD j 0 +
            ((decompose m b msg.val).getD j 0 : ZMod q) * ek.Y.getD j 0) *
              dk.V_2.getD j 0 - sk * (r * ek.X_0) * dk.V_1.getD j 0 =
          ((decompose m b msg.val).getD j 0 : ZMod q) *
            (ek.Y.getD j 0 * dk.V_2.getD j 0) := by
        rw [hX j hjn, hV1 j hjn, hV2 j hjn, hX0, hsk2]
        ring
      rw [htarget]
      exact decryptChunk_eq q b _ (hbase j hjn) _ (chunk_lt m b msg.val j) hqb
  rw [hchunks]
  have hcomp : compose q b (decompose m b msg.val) = msg.val :=
    compose_decompose_eq q m b msg.val hb0 hq (ZMod.val_lt msg)
  simp only [Except.map, hcomp, ZMod.natCast_rightInverse msg]

/-- Concrete instance of C8 at `q = 17`, `m = 5`, `b = 4` (`n = 2`), all
sampled scalars `1`, message `5`, randomness `3`. -/
theorem decrypt_encrypt_roundtrip_witness :
    decrypt 17 4 1 ⟨1, [1, 1], [1, 1]⟩
      ⟨1, [1, 1], [1, 1], [1, 1, 1], 3, 3⟩
      (encrypt 17 5 4 5 3 ⟨1, [1, 1], [1, 1], [1, 1, 1], 3, 3⟩) =
    .ok (5, 3 * (⟨1, [1, 1], [1, 1], [1, 1, 1], 3, 3⟩ :
      EncryptionKey 17).X_0) := by
  have hkg : keygen 17 5 4 (fun _ => (1 : ZMod 17)) ⟨1, 1⟩ [1, 1] 1 1 =
      .ok (1, ⟨1, [1, 1], [1, 1], [1, 1, 1], 3, 3⟩, ⟨1, [1, 1], [1, 1]⟩) := by
    decide
  have hbase : ∀ i < chunksCount 5 4,
      (⟨1, [1, 1], [1, 1], [1, 1, 1], 3, 3⟩ : EncryptionKey 17).Y.getD i 0 *
        (⟨1, [1, 1], [1, 1]⟩ : DecryptionKey 17).V_2.getD i 0 ≠ 0 := by
    decide
  haveI : Fact (Nat.Prime 17) := ⟨by norm_num⟩
  exact decrypt_encrypt_roundtrip 17 5 4 (fun _ => (1 : ZMod 17))
    (⟨1, 1⟩ : EncryptionGens 17) ([1, 1] : List (ZMod 17)) 1 1 5 3 1
    (⟨1, [1, 1], [1, 1], [1, 1, 1], 3, 3⟩ : EncryptionKey 17)
    (⟨1, [1, 1], [1, 1]⟩ : DecryptionKey 17)
    hkg (by norm_num) (by norm_num) (by norm_num) hbase
